import Mathlib

/-!
# Verification of the file-structure visualizer core

A shallow embedding of the `TreeVisualizer` class of `visualizer.py`:
configuration and name filtering (`should_exclude`), the recursive
tree renderer (`get_tree_lines` / `visualize`), the recursive search
engine (`search_files` / `search_recursive`) and the size formatter
(`_get_size`).  The filesystem is modelled as an inductive tree whose
directory nodes either expose a listing or fail on listing (modelling
`PermissionError`/`OSError` raised by `Path.iterdir`), and whose leaves
are regular files (with a byte size) or `special` nodes — entries for
which both `is_dir()` and `is_file()` report `false` (broken symlinks,
sockets, ...).  Timestamps (`_get_modified_time`), the Tk presentation
layer and threading are outside the model; progress messages put on the
queue are modelled by the ordered list of the counts sent.
-/

/-- Per-character lowering, modelling Python's `str.lower` on the ASCII
fragment that the source manipulates. -/
def lowerStr (s : String) : String := ⟨s.data.map Char.toLower⟩

/-- Boolean list-infix test (is `p` a contiguous sublist of `s`?),
modelling Python's substring operator `in` on strings. -/
def infixB (p s : List Char) : Bool :=
  (List.range (s.length + 1)).any (fun i => (s.drop i).take p.length == p)

/-- `p in s` for strings: substring containment. -/
def substrB (p s : String) : Bool := infixB p.data s.data

/-- Lexicographic `≤` on code points, the order Python uses to compare
the lower-cased name keys handed to `sorted`. -/
def lexLe : List Char → List Char → Bool
  | [], _ => true
  | _ :: _, [] => false
  | a :: as, b :: bs => if a < b then true else if b < a then false else lexLe as bs

/-- Stable insertion used by `isort`. -/
def insertLe (le : α → α → Bool) (a : α) : List α → List α
  | [] => [a]
  | b :: l => if le a b then a :: b :: l else b :: insertLe le a l

/-- Stable sort.  Python's `sorted` is a stable sort with respect to the
key order, and any stable sort computes the same list, so insertion sort
is a faithful model of it. -/
def isort (le : α → α → Bool) : List α → List α
  | [] => []
  | a :: l => insertLe le a (isort le l)

/-- `enumerate`, Python style. -/
def enumFrom (i : Nat) : List α → List (Nat × α)
  | [] => []
  | x :: l => (i, x) :: enumFrom (i + 1) l

/-- The constructor arguments of `TreeVisualizer.__init__`. -/
structure ScanConfig where
  show_hidden : Bool
  max_depth : Option Nat
  exclude_patterns : List String

/-- The default exclude pattern list of `TreeVisualizer.__init__`. -/
def defaultExcludePatterns : List String :=
  ["__pycache__", ".git", ".DS_Store", ".pytest_cache", "node_modules"]

/-- The default configuration (`TreeVisualizer()`): hidden files hidden,
no depth bound, default exclude patterns. -/
def defaultConfig : ScanConfig := ⟨false, none, defaultExcludePatterns⟩

/-- `name.startswith('.')`. -/
def startsWithDot (s : String) : Bool :=
  match s.data with
  | [] => false
  | c :: _ => c == '.'

/-- `TreeVisualizer.should_exclude`. -/
def ScanConfig.should_exclude (cfg : ScanConfig) (name : String) : Bool :=
  if !cfg.show_hidden && startsWithDot name then true
  else cfg.exclude_patterns.any (fun pat => substrB pat name)

/-- The guard `self.max_depth is not None and depth > self.max_depth`
shared by `get_tree_lines` and `search_recursive`. -/
def ScanConfig.depthExceeded (cfg : ScanConfig) (depth : Nat) : Bool :=
  match cfg.max_depth with
  | none => false
  | some m => decide (depth > m)

/-- A filesystem node.  `dir none` is a directory whose `iterdir` raises
`PermissionError`/`OSError`; `dir (some l)` lists `l` (in `iterdir`
order); `file n` is a regular file of `n` bytes; `special` is an entry
with `is_dir() = is_file() = False`. -/
inductive FS where
  | file (size : Nat) : FS
  | dir (listing : Option (List (String × FS))) : FS
  | special : FS

mutual
/-- Directory-nesting size of a filesystem tree, used as recursion fuel
for the traversals (the source recursion only descends into directory
nodes, so it is bounded by this quantity; leaves contribute nothing). -/
def FS.sz : FS → Nat
  | .file _ => 0
  | .special => 0
  | .dir none => 0
  | .dir (some l) => 1 + szList l

/-- Total size of the nodes of a listing (see `FS.sz`). -/
def szList : List (String × FS) → Nat
  | [] => 0
  | it :: l => FS.sz it.2 + szList l
end

/-- `Path.is_dir`. -/
def FS.is_dir : FS → Bool
  | .dir _ => true
  | _ => false

/-- `Path.is_file`. -/
def FS.is_file : FS → Bool
  | .file _ => true
  | _ => false

/-- `list(path.iterdir())`: `none` models the raised `OSError` (also for
non-directories, where Python raises `NotADirectoryError ⊂ OSError`). -/
def FS.listingOf : FS → Option (List (String × FS))
  | .dir l => l
  | _ => none

/-- Key order used by `get_tree_lines`: `key=lambda x: x.name.lower()`,
compared with Python's lexicographic string order. -/
def nameKeyLe (a b : String × FS) : Bool :=
  lexLe (lowerStr a.1).data (lowerStr b.1).data

/-- `f"{v:.1f}"` for the non-negative value `v = num / den` (`den > 0`),
rounding half to even as `%.1f` does.  `_get_size` only ever formats
`size / 1024^k`, a value that is exact in double precision (for sizes
below `2^53`), so formatting the stored double rounds this exact
rational; the pair `(num, den)` represents it without loss. -/
def format1 (num den : Nat) : String :=
  let t := num * 10
  let f := t / den
  let r := t % den
  let n := if 2 * r < den then f
           else if 2 * r > den then f + 1
           else if f % 2 = 0 then f else f + 1
  s!"{n / 10}.{n % 10}"

/-- The unit loop of `TreeVisualizer._get_size`; the running float
`size` is the exact rational `num / den` (`den = 1024^k`).  The test
`size < 1024.0` is `num < 1024 * den` and `size /= 1024.0` multiplies
the denominator (division by 1024 is exact on doubles). -/
def getSizeGo : Nat → Nat → List String → String
  | num, den, [] => format1 num den ++ " TB"
  | num, den, u :: us =>
    if num < 1024 * den then format1 num den ++ " " ++ u
    else getSizeGo num (den * 1024) us

/-- `TreeVisualizer._get_size` on a file of `size` bytes. -/
def get_size (size : Nat) : String := getSizeGo size 1 ["B", "KB", "MB", "GB"]

/-- `"\n".join(lines)`. -/
def joinNL : List String → String
  | [] => ""
  | [s] => s
  | s :: l => s ++ "\n" ++ joinNL l

/-- Output of one `get_tree_lines` call: the returned `lines`, the
`('progress', count)` messages put on the queue (in order), and — as
ghost instrumentation for the proofs — one `(parent-relative-path,
name)` record per iteration of the rendering loop. -/
structure TreeOut where
  lines : List String
  progress : List Nat
  visited : List (List String × String)
deriving DecidableEq

/-- Line 32 of the source: children surviving the exclusion filter. -/
def filteredChildren (cfg : ScanConfig) (items0 : List (String × FS)) :
    List (String × FS) :=
  items0.filter (fun it => !cfg.should_exclude it.1)

/-- Lines 37-39 of the source: the filtered children partitioned into
directories and files, each group sorted by lower-cased name,
directories first. -/
def sortChildren (cfg : ScanConfig) (items0 : List (String × FS)) :
    List (String × FS) :=
  isort nameKeyLe ((filteredChildren cfg items0).filter (fun it => it.2.is_dir)) ++
  isort nameKeyLe ((filteredChildren cfg items0).filter (fun it => it.2.is_file))

/-- The body of the rendering loop (lines 43-57 of the source) for the
enumerated child `p` out of `total` sorted children: pick the connector
and continuation prefix, emit the entry's line and, for directories,
the recursively rendered subtree (`rec` is the recursive call at the
remaining fuel). -/
def treeStep (rec : FS → String → Bool → List String → TreeOut)
    (pfx : String) (isLast : Bool) (relAcc : List String) (total : Nat)
    (p : Nat × (String × FS)) : TreeOut :=
  let isLastItem : Bool := p.1 == total - 1
  let connector := if isLast then (if isLastItem then "└── " else "├── ")
                   else (if isLastItem then "├── " else "├── ")
  let pfxNext := if isLast then pfx ++ "    " else pfx ++ "│   "
  let line := pfx ++ connector ++ p.2.1
  if p.2.2.is_dir then
    let child := rec p.2.2 pfxNext isLastItem (relAcc ++ [p.2.1])
    TreeOut.mk (line :: child.lines) child.progress ((relAcc, p.2.1) :: child.visited)
  else
    TreeOut.mk [line] [] [(relAcc, p.2.1)]

/-- `TreeVisualizer.get_tree_lines`, fuel-indexed.  `relAcc` is the
(ghost) path of `root_dir` relative to the scan root; the source's
`depth` parameter always equals `relAcc.length`, so the guard reads
`relAcc.length`.  `fuel` only bounds recursion; every public use gives
it `node.sz + 1`, which the recursion never exhausts. -/
def treeGo (cfg : ScanConfig) :
    Nat → FS → String → Bool → List String → TreeOut
  | 0, _, _, _, _ => ⟨[], [], []⟩
  | fuel + 1, node, pfx, isLast, relAcc =>
    if cfg.depthExceeded relAcc.length then ⟨[], [], []⟩
    else
      match node.listingOf with
      | none => ⟨[pfx ++ "└── [Permission Denied]"], [], []⟩
      | some items0 =>
        let items := filteredChildren cfg items0
        let sortedItems := sortChildren cfg items0
        let parts := (enumFrom 0 sortedItems).map
          (treeStep (treeGo cfg fuel) pfx isLast relAcc sortedItems.length)
        ⟨(parts.map TreeOut.lines).flatten,
          items.length :: (parts.map TreeOut.progress).flatten,
          (parts.map TreeOut.visited).flatten⟩

/-- The `get_tree_lines(root_path, "", True, 0, q)` call made by
`TreeVisualizer.visualize`. -/
def treeOut (cfg : ScanConfig) (fs : FS) : TreeOut :=
  treeGo cfg (fs.sz + 1) fs "" true []

/-- `TreeVisualizer.visualize` (the returned string); `rootName` is
`root_path.name if root_path.name else str(root_path)`. -/
def visualize (cfg : ScanConfig) (rootName : String) (fs : FS) : String :=
  joinNL ((rootName ++ "/") :: (treeOut cfg fs).lines)



/-- `'*' in search_pattern or '?' in search_pattern`. -/
def hasWildcard (pat : String) : Bool :=
  pat.data.any (fun c => c == '*' || c == '?')

/-- One token of the compiled search regex. -/
inductive Tok where
  | lit (c : Char) : Tok
  | star : Tok
  | que : Tok
deriving DecidableEq

/-- Characters whose regex meaning is their plain selves in the regex
built by `search_files`.  The source escapes only `.` and rewrites only
`*` and `?`; every other metacharacter of Python's `re` — the parens,
the square and curly brackets, `+`, `|`, `^`, `$` and the backslash —
is passed to `re.compile` unescaped and keeps its regex meaning there
(or makes the pattern ill-formed, raising `re.error`).  Patterns
containing one of those are therefore matched by Python's full regex
engine, which this embedding does not model. -/
def plainRegexChar (c : Char) : Bool :=
  !(c == '(' || c == ')' || c == '[' || c == ']' || c == '\x7b' || c == '\x7d' ||
    c == '+' || c == '|' || c == '^' || c == '$' || c == '\\')

/-- Patterns inside the faithfully modelled fragment: every character
is either one of the handled `.`, `*`, `?` or an ordinary character
with no regex meaning of its own. -/
def plainPattern (pat : String) : Bool := pat.data.all plainRegexChar

/-- Translation of one pattern character, following the source's
rewriting of the lowered pattern: `*` becomes `.*`, `?` becomes `.`,
`.` is escaped to `\.` (a literal), every other character stands for
itself.  This is the compiled regex's meaning exactly when the pattern
satisfies `plainPattern`; outside that fragment the source's regex
diverges from this token list (e.g. raw parentheses group instead of
matching literally). -/
def charTok (c : Char) : Tok :=
  if c == '*' then .star else if c == '?' then .que else .lit c

/-- The compiled, anchored regex `^...$` built by `search_files` from
the lowered pattern. -/
def compilePat (pat : String) : List Tok :=
  (lowerStr pat).data.map charTok

/-- Anchored matching of the compiled regex against a (lowered) name:
`lit c` consumes exactly `c`, `que` consumes exactly one character,
`star` consumes any sequence.  Every recursive call shrinks
`ts.length + s.length`, so the fuel only bounds the recursion. -/
def tokMatchF : Nat → List Tok → List Char → Bool
  | 0, _, _ => false
  | fuel + 1, ts, s =>
    match ts, s with
    | [], [] => true
    | [], _ :: _ => false
    | .lit _ :: _, [] => false
    | .lit c :: ts, d :: ds => c == d && tokMatchF fuel ts ds
    | .que :: _, [] => false
    | .que :: ts, _ :: ds => tokMatchF fuel ts ds
    | .star :: ts, [] => tokMatchF fuel ts []
    | .star :: ts, d :: ds => tokMatchF fuel ts (d :: ds) || tokMatchF fuel (.star :: ts) ds

/-- Acceptance by the compiled anchored regex (`pattern_re.search` with
both anchors accepts exactly these strings). -/
def tokMatch (ts : List Tok) (s : List Char) : Bool :=
  tokMatchF (ts.length + s.length + 1) ts s

/-- The per-name match test of `search_recursive`: wildcard patterns go
through the compiled anchored regex, other patterns through
case-insensitive substring containment (`search_lower in item_lower`).
The substring branch is faithful for every pattern; the wildcard
branch agrees with `pattern_re.search` for patterns satisfying
`plainPattern` matched against newline-free names (raw regex
metacharacters, `re.error` on ill-formed patterns, and `.`/`$`
newline handling are Python regex behaviours outside the model). -/
def searchMatchesName (pat name : String) : Bool :=
  if hasWildcard pat then tokMatch (compilePat pat) (lowerStr name).data
  else substrB (lowerStr pat) (lowerStr name)

/-- One record of the list returned by `search_files` (the `modified`
field, a formatted filesystem timestamp, is outside the model). -/
structure SearchResult where
  name : String
  relative_path : List String
  type : String
  size : Option String
deriving DecidableEq

/-- `'directory' if item.is_dir() else 'file'`. -/
def FS.typeStr (fs : FS) : String := if fs.is_dir then "directory" else "file"

/-- `self._get_size(item) if item.is_file() else None`. -/
def FS.sizeField : FS → Option String
  | .file n => some (get_size n)
  | _ => none

/-- `search_recursive`, fuel-indexed like `treeGo`.  `relAcc` is the
path of `current_path` relative to the scan root (`depth` in the source
always equals `relAcc.length`).  The first component is the `results`
accumulated from this subtree, the second the progress counts put on
the queue (note: the search counts the *unfiltered* listing).  The
`rel_path` conditional mirrors line 108 of the source: `item` equals
`root_path` exactly when its relative path has no components. -/
def searchGo (cfg : ScanConfig) (pat : String) :
    Nat → FS → List String → List SearchResult × List Nat
  | 0, _, _ => ([], [])
  | fuel + 1, node, relAcc =>
    if cfg.depthExceeded relAcc.length then ([], [])
    else
      match node.listingOf with
      | none => ([], [])
      | some items0 =>
        let parts := items0.map (fun it =>
          if cfg.should_exclude it.1 then ([], [])
          else
            let here : List SearchResult :=
              if searchMatchesName pat it.1 then
                let rel := relAcc ++ [it.1]
                [⟨it.1, if rel.isEmpty then [it.1] else rel, it.2.typeStr, it.2.sizeField⟩]
              else []
            if it.2.is_dir then
              let sub := searchGo cfg pat fuel it.2 (relAcc ++ [it.1])
              (here ++ sub.1, sub.2)
            else (here, []))
        ((parts.map Prod.fst).flatten,
          items0.length :: (parts.map Prod.snd).flatten)

/-- `TreeVisualizer.search_files` (the returned result list). -/
def search_files (cfg : ScanConfig) (pat : String) (fs : FS) : List SearchResult :=
  (searchGo cfg pat (fs.sz + 1) fs []).1

/-- Progress counts sent during `search_files`. -/
def searchProgress (cfg : ScanConfig) (pat : String) (fs : FS) : List Nat :=
  (searchGo cfg pat (fs.sz + 1) fs []).2

/-- Spec-side glob semantics on lowered character lists, following the
spec's words for wildcard matching: a literal character matches itself,
`?` matches exactly one character, `*` matches any character sequence,
and the match is anchored at both ends (the whole name is consumed).
Case-insensitivity is obtained by applying it to the lowered pattern
and name (see `GlobCI`). -/
inductive GM : List Char → List Char → Prop
  | nil : GM [] []
  | lit {c : Char} {p s : List Char} : c ≠ '*' → c ≠ '?' → GM p s → GM (c :: p) (c :: s)
  | que {p s : List Char} (d : Char) : GM p s → GM ('?' :: p) (d :: s)
  | star {p : List Char} (s₁ s₂ : List Char) : GM p s₂ → GM ('*' :: p) (s₁ ++ s₂)

/-- Case-insensitive anchored glob match of `pat` against `name`, the
spec's description of wildcard matching. -/
def GlobCI (pat name : String) : Prop :=
  GM (lowerStr pat).data (lowerStr name).data

/-- Case-insensitive substring containment of `pat` in `name`, the
spec's description of literal matching. -/
def SubstrCI (pat name : String) : Prop :=
  ∃ l r, (lowerStr name).data = l ++ (lowerStr pat).data ++ r

/-- The entries a traversal encounters: `EncFrom cfg node relAcc rel it`
says that starting at `node` (whose path relative to the scan root is
`relAcc`), the depth-bounded, exclusion-filtered descent lists the
entry `it` inside the directory at relative path `rel`.  Both
`get_tree_lines` and `search_recursive` descend exactly like this:
list the current directory if the depth guard passes, then recurse
into the non-excluded children that are directories. -/
inductive EncFrom (cfg : ScanConfig) : FS → List String → List String → String × FS → Prop
  | base {node : FS} {relAcc : List String} {items : List (String × FS)} {it : String × FS} :
      cfg.depthExceeded relAcc.length = false → node.listingOf = some items →
      it ∈ items → EncFrom cfg node relAcc relAcc it
  | step {node : FS} {relAcc rel : List String} {items : List (String × FS)}
      {n : String} {sub : FS} {it : String × FS} :
      cfg.depthExceeded relAcc.length = false → node.listingOf = some items →
      (n, sub) ∈ items → sub.is_dir = true → cfg.should_exclude n = false →
      EncFrom cfg sub (relAcc ++ [n]) rel it → EncFrom cfg node relAcc rel it

/-- A filesystem tree containing only readable directories and regular
files (no permission failures, no entries that are neither directory
nor file). -/
inductive FS.Ok : FS → Prop
  | file (n : Nat) : FS.Ok (.file n)
  | dir (items : List (String × FS)) :
      (∀ it ∈ items, FS.Ok it.2) → FS.Ok (.dir (some items))

/-- The number of non-excluded entries the depth-bounded traversal
reaches, written directly from the spec's words ("the number of
non-excluded entries reachable within `max_depth`", with the depth
guard of the traversal): each non-excluded child counts once, and
non-excluded child directories contribute their own reachable count. -/
def countGo (cfg : ScanConfig) : Nat → FS → Nat → Nat
  | 0, _, _ => 0
  | fuel + 1, node, depth =>
    if cfg.depthExceeded depth then 0
    else
      match node.listingOf with
      | none => 0
      | some items0 =>
        let items := items0.filter (fun it => !cfg.should_exclude it.1)
        (items.map (fun it =>
          1 + (if it.2.is_dir then countGo cfg fuel it.2 (depth + 1) else 0))).sum

/-- The number of non-excluded entries reachable from the scan root
within the traversal's depth bound. -/
def specReachableCount (cfg : ScanConfig) (fs : FS) : Nat :=
  countGo cfg (fs.sz + 1) fs 0

/-! ## List and sorting lemmas -/

theorem mem_insertLe {le : α → α → Bool} {a x : α} {l : List α} :
    a ∈ insertLe le x l ↔ a = x ∨ a ∈ l := by
  induction l with
  | nil => simp [insertLe]
  | cons b t ih =>
    by_cases h : le x b = true
    · simp [insertLe, h]
    · simp only [insertLe, h, if_neg, Bool.not_eq_true] at *
      simp [List.mem_cons, ih]
      tauto

theorem mem_isort {le : α → α → Bool} {a : α} {l : List α} :
    a ∈ isort le l ↔ a ∈ l := by
  induction l with
  | nil => simp [isort]
  | cons b t ih => simp [isort, mem_insertLe, ih]

theorem insertLe_perm (le : α → α → Bool) (x : α) (l : List α) :
    (insertLe le x l).Perm (x :: l) := by
  induction l with
  | nil => simp [insertLe]
  | cons b t ih =>
    by_cases h : le x b = true
    · simp [insertLe, h]
    · simp only [insertLe, h]
      exact (ih.cons b).trans (List.Perm.swap x b t)

theorem isort_perm (le : α → α → Bool) (l : List α) : (isort le l).Perm l := by
  induction l with
  | nil => simp [isort]
  | cons b t ih => exact (insertLe_perm le b (isort le t)).trans (ih.cons b)

theorem filter_partition_perm {p q : α → Bool} {l : List α}
    (h : ∀ x ∈ l, q x = !p x) : (l.filter p ++ l.filter q).Perm l := by
  induction l with
  | nil => simp
  | cons b t ih =>
    have hb := h b (by simp)
    have ht : ∀ x ∈ t, q x = !p x := fun x hx => h x (by simp [hx])
    by_cases hp : p b = true
    · simp [List.filter_cons, hp, hb]
      exact ih ht
    · simp only [Bool.not_eq_true] at hp
      simp [List.filter_cons, hp, hb]
      exact List.perm_middle.trans ((ih ht).cons b)

theorem mem_enumFrom {i j : Nat} {a : α} {l : List α}
    (h : (j, a) ∈ enumFrom i l) : a ∈ l := by
  induction l generalizing i with
  | nil => cases h
  | cons b t ih =>
    rcases List.mem_cons.mp h with h1 | h2
    · cases h1; simp
    · exact List.mem_cons_of_mem _ (ih h2)

theorem mem_enumFrom_of_mem {a : α} {l : List α} (h : a ∈ l) (i : Nat) :
    ∃ j, (j, a) ∈ enumFrom i l := by
  induction l generalizing i with
  | nil => cases h
  | cons b t ih =>
    rcases List.mem_cons.mp h with h1 | h2
    · exact ⟨i, by simp [enumFrom, h1]⟩
    · obtain ⟨j, hj⟩ := ih h2 (i + 1)
      exact ⟨j, by simp [enumFrom, hj]⟩

theorem enumFrom_map_snd (i : Nat) (l : List α) :
    (enumFrom i l).map Prod.snd = l := by
  induction l generalizing i with
  | nil => rfl
  | cons b t ih => simp [enumFrom, ih]

theorem sz_lt_of_mem {n : String} {sub : FS} {l : List (String × FS)}
    (h : (n, sub) ∈ l) : FS.sz sub < FS.sz (.dir (some l)) := by
  have key : ∀ l : List (String × FS), (n, sub) ∈ l → FS.sz sub < 1 + szList l := by
    intro l hl
    induction l with
    | nil => cases hl
    | cons a t ih =>
      rcases List.mem_cons.mp hl with h1 | h2
      · subst h1; simp [szList]; omega
      · have := ih h2; simp [szList]; omega
  simpa [FS.sz] using key l h

theorem sz_insert_special (pre post : List (String × FS)) (n : String) :
    FS.sz (.dir (some (pre ++ (n, FS.special) :: post))) =
      FS.sz (.dir (some (pre ++ post))) := by
  have key : ∀ l₁ : List (String × FS),
      szList (l₁ ++ (n, FS.special) :: post) = szList (l₁ ++ post) := by
    intro l₁
    induction l₁ with
    | nil => simp [szList, FS.sz]
    | cons a t ih => simp [szList, ih]
  simp [FS.sz, key]

theorem depthExceeded_zero (cfg : ScanConfig) : cfg.depthExceeded 0 = false := by
  unfold ScanConfig.depthExceeded
  cases cfg.max_depth with
  | none => rfl
  | some m => simp

theorem mem_sortChildren {cfg : ScanConfig} {items0 : List (String × FS)}
    {it : String × FS} :
    it ∈ sortChildren cfg items0 ↔
      it ∈ items0 ∧ cfg.should_exclude it.1 = false ∧
        (it.2.is_dir = true ∨ it.2.is_file = true) := by
  simp [sortChildren, filteredChildren, mem_isort, List.mem_filter]
  tauto


/-- Soundness of the tree traversal: every entry the rendering loop
visits is non-excluded, was listed by a call that passed the depth
guard, and lives below the directory the call started from. -/
theorem tree_visited_sound (cfg : ScanConfig) :
    ∀ fuel node pfx isLast relAcc v,
      v ∈ (treeGo cfg fuel node pfx isLast relAcc).visited →
      cfg.should_exclude v.2 = false ∧
      cfg.depthExceeded v.1.length = false ∧
      ∃ mid, v.1 = relAcc ++ mid := by
  intro fuel
  induction fuel with
  | zero => intro node pfx isLast relAcc v hv; simp [treeGo] at hv
  | succ f ih =>
    intro node pfx isLast relAcc v hv
    simp only [treeGo, treeStep] at hv
    split at hv
    · simp at hv
    · rename_i hguard
      split at hv
      · simp at hv
      · rename_i sc items0 hlist
        simp only [List.mem_flatten, List.mem_map] at hv
        obtain ⟨l, ⟨a, ⟨p, hp, hstep⟩, hal⟩, hvl⟩ := hv
        subst hstep
        subst hal
        simp only [treeStep] at hvl
        have hmem := mem_sortChildren.mp (mem_enumFrom hp)
        have hguard' : cfg.depthExceeded relAcc.length = false := by
          simpa using hguard
        by_cases hdir : p.2.2.is_dir = true
        · simp only [hdir, if_true, reduceIte] at hvl
          rcases List.mem_cons.mp hvl with h1 | h2
          · subst h1
            exact ⟨hmem.2.1, hguard', [], by simp⟩
          · obtain ⟨he, hg, mid, hmid⟩ := ih _ _ _ _ _ h2
            exact ⟨he, hg, p.2.1 :: mid, by simpa using hmid⟩
        · simp only [Bool.not_eq_true] at hdir
          simp only [hdir, Bool.false_eq_true, reduceIte] at hvl
          simp only [List.mem_singleton] at hvl
          subst hvl
          exact ⟨hmem.2.1, hguard', [], by simp⟩

/-- Completeness of the tree traversal: every encountered entry that is
non-excluded and is a directory or a regular file is visited by the
rendering loop (and hence rendered), for any prefix and last-flag. -/
theorem tree_visited_complete (cfg : ScanConfig) {node₀ : FS}
    {relAcc₀ rel₀ : List String} {it₀ : String × FS}
    (henc : EncFrom cfg node₀ relAcc₀ rel₀ it₀) :
    cfg.should_exclude it₀.1 = false →
    (it₀.2.is_dir = true ∨ it₀.2.is_file = true) →
    ∀ fuel pfx isLast, FS.sz node₀ < fuel →
      (rel₀, it₀.1) ∈ (treeGo cfg fuel node₀ pfx isLast relAcc₀).visited := by
  induction henc with
  | base hguard hlist hmem =>
    rename_i node relAcc items it
    intro hexcl hdf fuel pfx isLast hfuel
    match fuel, hfuel with
    | f + 1, _ =>
      simp only [treeGo, treeStep, hguard, Bool.false_eq_true, reduceIte, hlist]
      have hsort : it ∈ sortChildren cfg items := mem_sortChildren.mpr ⟨hmem, hexcl, hdf⟩
      obtain ⟨j, hj⟩ := mem_enumFrom_of_mem hsort 0
      simp only [List.mem_flatten, List.mem_map]
      refine ⟨_, ⟨_, ⟨(j, it), hj, rfl⟩, rfl⟩, ?_⟩
      simp only [treeStep]
      by_cases hdir : it.2.is_dir = true
      · simp only [hdir, reduceIte]
        exact List.mem_cons_self _ _
      · simp only [Bool.not_eq_true] at hdir
        simp only [hdir, Bool.false_eq_true, reduceIte]
        simp
  | step hguard hlist hmem hdir hexcl hsub ih =>
    rename_i node relAcc rel items n sub it
    intro hexcl' hdf fuel pfx isLast hfuel
    match fuel, hfuel with
    | f + 1, hfuel =>
      simp only [treeGo, treeStep, hguard, Bool.false_eq_true, reduceIte, hlist]
      have hsort : (n, sub) ∈ sortChildren cfg items :=
        mem_sortChildren.mpr ⟨hmem, hexcl, Or.inl hdir⟩
      obtain ⟨j, hj⟩ := mem_enumFrom_of_mem hsort 0
      simp only [List.mem_flatten, List.mem_map]
      refine ⟨_, ⟨_, ⟨(j, (n, sub)), hj, rfl⟩, rfl⟩, ?_⟩
      simp only [treeStep]
      have hsz : FS.sz node = FS.sz (.dir (some items)) := by
        cases node with
        | dir o =>
          cases o with
          | none => simp [FS.listingOf] at hlist
          | some l =>
            simp only [FS.listingOf, Option.some.injEq] at hlist
            subst hlist; rfl
        | file sz => simp [FS.listingOf] at hlist
        | special => simp [FS.listingOf] at hlist
      have hszlt : FS.sz sub < f := by
        have h1 := sz_lt_of_mem hmem
        omega
      simp only [hdir, reduceIte]
      exact List.mem_cons_of_mem _ (ih hexcl' hdf f _ _ hszlt)

/-- Soundness of the search traversal: every returned record names a
non-excluded, pattern-matching entry; its relative path extends the
current directory's path by at least the entry's own name and was
produced under a passing depth guard; its size field is either absent
or a `_get_size` rendering, and directory records carry no size. -/
theorem search_results_sound (cfg : ScanConfig) (pat : String) :
    ∀ fuel node relAcc r, r ∈ (searchGo cfg pat fuel node relAcc).1 →
      cfg.should_exclude r.name = false ∧
      searchMatchesName pat r.name = true ∧
      (∃ pre, r.relative_path = pre ++ [r.name] ∧
        cfg.depthExceeded pre.length = false ∧ ∃ mid, pre = relAcc ++ mid) ∧
      (r.size = none ∨ ∃ k, r.size = some (get_size k)) ∧
      (r.type = "directory" → r.size = none) := by
  intro fuel
  induction fuel with
  | zero => intro node relAcc r hr; simp [searchGo] at hr
  | succ f ih =>
    intro node relAcc r hr
    simp only [searchGo] at hr
    split at hr
    · simp at hr
    · rename_i hguard
      split at hr
      · simp at hr
      · rename_i sc items0 hlist
        simp only [List.mem_flatten, List.mem_map] at hr
        obtain ⟨l, ⟨a, ⟨p, hp, hstep⟩, hal⟩, hrl⟩ := hr
        subst hstep
        subst hal
        have hguard' : cfg.depthExceeded relAcc.length = false := by
          simpa using hguard
        by_cases hexcl : cfg.should_exclude p.1 = true
        · simp only [hexcl, reduceIte] at hrl
          simp at hrl
        · simp only [Bool.not_eq_true] at hexcl
          simp only [hexcl, Bool.false_eq_true, reduceIte] at hrl
          have hhere : ∀ q ∈ (if searchMatchesName pat p.1 = true then
              [SearchResult.mk p.1
                (if (relAcc ++ [p.1]).isEmpty then [p.1] else relAcc ++ [p.1])
                p.2.typeStr p.2.sizeField] else []),
              cfg.should_exclude q.name = false ∧
              searchMatchesName pat q.name = true ∧
              (∃ pre, q.relative_path = pre ++ [q.name] ∧
                cfg.depthExceeded pre.length = false ∧ ∃ mid, pre = relAcc ++ mid) ∧
              (q.size = none ∨ ∃ k, q.size = some (get_size k)) ∧
              (q.type = "directory" → q.size = none) := by
            intro q hq
            by_cases hm : searchMatchesName pat p.1 = true
            · simp only [hm, reduceIte, List.mem_singleton] at hq
              subst hq
              have hne : (relAcc ++ [p.1]).isEmpty = false := by
                cases relAcc <;> rfl
              refine ⟨hexcl, hm, ⟨relAcc, by simp [hne], hguard', [], by simp⟩, ?_, ?_⟩
              · cases hfs : p.2 with
                | file k => exact Or.inr ⟨k, by simp [FS.sizeField]⟩
                | dir o => exact Or.inl (by simp [FS.sizeField])
                | special => exact Or.inl (by simp [FS.sizeField])
              · intro htype
                cases hfs : p.2 with
                | file k =>
                  exfalso
                  simp [hfs, FS.typeStr, FS.is_dir] at htype
                | dir o => simp [FS.sizeField]
                | special => simp [FS.sizeField]
            · simp only [Bool.not_eq_true] at hm
              simp [hm] at hq
          by_cases hdir : p.2.is_dir = true
          · simp only [hdir, reduceIte] at hrl
            rcases List.mem_append.mp hrl with h1 | h2
            · exact hhere r h1
            · obtain ⟨he, hm, ⟨pre, hpre, hg, mid, hmid⟩, hsz, hty⟩ := ih _ _ _ h2
              exact ⟨he, hm, ⟨pre, hpre, hg, p.1 :: mid, by simpa using hmid⟩, hsz, hty⟩
          · simp only [Bool.not_eq_true] at hdir
            simp only [hdir, Bool.false_eq_true, reduceIte] at hrl
            exact hhere r hrl

theorem treeStep_lines_length (rec : FS → String → Bool → List String → TreeOut)
    (pfx : String) (isLast : Bool) (relAcc : List String) (total : Nat)
    (p : Nat × (String × FS)) :
    (treeStep rec pfx isLast relAcc total p).lines.length =
      1 + (if p.2.2.is_dir = true then
        (rec p.2.2 (if isLast then pfx ++ "    " else pfx ++ "│   ")
          (p.1 == total - 1) (relAcc ++ [p.2.1])).lines.length else 0) := by
  by_cases hd : p.2.2.is_dir = true
  · simp [treeStep, hd]; omega
  · simp only [Bool.not_eq_true] at hd
    simp [treeStep, hd]

theorem ok_child {items : List (String × FS)} (hok : FS.Ok (.dir (some items)))
    {it : String × FS} (hit : it ∈ items) : FS.Ok it.2 := by
  cases hok with
  | dir _ h => exact h it hit

theorem ok_file_eq_not_dir {fs : FS} (h : FS.Ok fs) : fs.is_file = !fs.is_dir := by
  cases h <;> rfl

theorem sortChildren_perm_of_ok {cfg : ScanConfig} {items0 : List (String × FS)}
    (hok : FS.Ok (.dir (some items0))) :
    (sortChildren cfg items0).Perm (filteredChildren cfg items0) := by
  unfold sortChildren
  refine ((isort_perm _ _).append (isort_perm _ _)).trans ?_
  exact filter_partition_perm (fun it hit => by
    have : FS.Ok it.2 := ok_child hok (List.mem_filter.mp hit).1
    exact ok_file_eq_not_dir this)

/-- In a tree of readable directories and regular files, the rendering
loop emits exactly one line per reachable non-excluded entry. -/
theorem tree_lines_count (cfg : ScanConfig) :
    ∀ fuel node pfx isLast relAcc, node.Ok → node.is_dir = true →
      (treeGo cfg fuel node pfx isLast relAcc).lines.length =
      countGo cfg fuel node relAcc.length := by
  intro fuel
  induction fuel with
  | zero => intro node pfx isLast relAcc hok hdir; simp [treeGo, countGo]
  | succ f ih =>
    intro node pfx isLast relAcc hok hdir
    obtain ⟨items0, rfl⟩ : ∃ items0, node = .dir (some items0) := by
      cases hok with
      | file n => simp [FS.is_dir] at hdir
      | dir items h => exact ⟨items, rfl⟩
    simp only [treeGo, countGo, FS.listingOf]
    by_cases hguard : cfg.depthExceeded relAcc.length = true
    · simp [hguard]
    · simp only [Bool.not_eq_true] at hguard
      simp only [hguard, Bool.false_eq_true, reduceIte]
      rw [List.length_flatten, List.map_map, List.map_map]
      have hcong : ((enumFrom 0 (sortChildren cfg items0)).map
            ((List.length ∘ TreeOut.lines) ∘
              treeStep (treeGo cfg f) pfx isLast relAcc (sortChildren cfg items0).length)) =
          ((enumFrom 0 (sortChildren cfg items0)).map (fun p =>
            (fun it => 1 + (if it.2.is_dir = true then
              countGo cfg f it.2 (relAcc.length + 1) else 0)) p.2)) := by
        refine List.map_congr_left ?_
        intro p hp
        have hmem := mem_sortChildren.mp (mem_enumFrom hp)
        simp only [Function.comp_apply, treeStep_lines_length]
        by_cases hd : p.2.2.is_dir = true
        · have hchild := ih p.2.2 (if isLast then pfx ++ "    " else pfx ++ "│   ")
            (p.1 == (sortChildren cfg items0).length - 1) (relAcc ++ [p.2.1])
            (ok_child hok hmem.1) hd
          simp only [hd, reduceIte, hchild]
          simp
        · simp only [Bool.not_eq_true] at hd
          simp [hd]
      rw [hcong]
      have hsnd : ((enumFrom 0 (sortChildren cfg items0)).map (fun p =>
            (fun it => 1 + (if it.2.is_dir = true then
              countGo cfg f it.2 (relAcc.length + 1) else 0)) p.2)) =
          ((sortChildren cfg items0).map (fun it =>
            1 + (if it.2.is_dir = true then countGo cfg f it.2 (relAcc.length + 1) else 0))) := by
        have := enumFrom_map_snd 0 (sortChildren cfg items0)
        calc _ = ((enumFrom 0 (sortChildren cfg items0)).map Prod.snd).map
              (fun it => 1 + (if it.2.is_dir = true then
                countGo cfg f it.2 (relAcc.length + 1) else 0)) := by
              rw [List.map_map]; rfl
          _ = _ := by rw [this]
      rw [hsnd]
      exact ((sortChildren_perm_of_ok hok).map _).sum_eq

/-- Effect of a `special` entry (neither directory nor file) on one
directory's rendering: dropped from the partition, counted by the
progress message. -/
theorem filteredChildren_special (cfg : ScanConfig) (pre post : List (String × FS))
    (n : String) (hexcl : cfg.should_exclude n = false) :
    filteredChildren cfg (pre ++ (n, FS.special) :: post) =
      filteredChildren cfg pre ++ (n, FS.special) :: filteredChildren cfg post := by
  simp [filteredChildren, List.filter_append, List.filter_cons, hexcl]

theorem sortChildren_special (cfg : ScanConfig) (pre post : List (String × FS))
    (n : String) (hexcl : cfg.should_exclude n = false) :
    sortChildren cfg (pre ++ (n, FS.special) :: post) =
      sortChildren cfg (pre ++ post) := by
  unfold sortChildren
  rw [filteredChildren_special cfg pre post n hexcl]
  have hd : (filteredChildren cfg pre ++ (n, FS.special) :: filteredChildren cfg post).filter
        (fun it => it.2.is_dir) =
      (filteredChildren cfg (pre ++ post)).filter (fun it => it.2.is_dir) := by
    simp [filteredChildren, List.filter_append, List.filter_cons, FS.is_dir]
  have hf : (filteredChildren cfg pre ++ (n, FS.special) :: filteredChildren cfg post).filter
        (fun it => it.2.is_file) =
      (filteredChildren cfg (pre ++ post)).filter (fun it => it.2.is_file) := by
    simp [filteredChildren, List.filter_append, List.filter_cons, FS.is_file]
  rw [hd, hf]

theorem special_entry_effect (cfg : ScanConfig) (fuel : Nat) (pfx : String)
    (isLast : Bool) (relAcc : List String) (pre post : List (String × FS)) (n : String)
    (hexcl : cfg.should_exclude n = false)
    (hguard : cfg.depthExceeded relAcc.length = false) (hfuel : 0 < fuel) :
    (treeGo cfg fuel (.dir (some (pre ++ (n, FS.special) :: post))) pfx isLast relAcc).lines =
      (treeGo cfg fuel (.dir (some (pre ++ post))) pfx isLast relAcc).lines ∧
    (treeGo cfg fuel (.dir (some (pre ++ (n, FS.special) :: post))) pfx isLast relAcc).visited =
      (treeGo cfg fuel (.dir (some (pre ++ post))) pfx isLast relAcc).visited ∧
    (treeGo cfg fuel (.dir (some (pre ++ (n, FS.special) :: post))) pfx isLast relAcc).progress =
      ((filteredChildren cfg (pre ++ post)).length + 1) ::
        (treeGo cfg fuel (.dir (some (pre ++ post))) pfx isLast relAcc).progress.tail := by
  match fuel, hfuel with
  | f + 1, _ =>
    simp only [treeGo, FS.listingOf, hguard, Bool.false_eq_true, reduceIte]
    rw [sortChildren_special cfg pre post n hexcl,
      filteredChildren_special cfg pre post n hexcl]
    refine ⟨rfl, rfl, ?_⟩
    simp [filteredChildren, List.filter_append]
    omega

/-- Matching is invariant in the fuel once the fuel exceeds the total
length of tokens and string. -/
theorem tokMatchF_irrel :
    ∀ fuel₁ fuel₂ (ts : List Tok) (s : List Char),
      ts.length + s.length < fuel₁ → ts.length + s.length < fuel₂ →
      tokMatchF fuel₁ ts s = tokMatchF fuel₂ ts s := by
  intro fuel₁
  induction fuel₁ with
  | zero => intro fuel₂ ts s h1 h2; omega
  | succ f ih =>
    intro fuel₂ ts s h1 h2
    match fuel₂, h2 with
    | g + 1, h2 =>
      match ts, s with
      | [], [] => rfl
      | [], _ :: _ => rfl
      | .lit _ :: _, [] => rfl
      | .lit c :: ts, d :: ds =>
        show (c == d && tokMatchF f ts ds) = (c == d && tokMatchF g ts ds)
        simp only [List.length_cons] at h1 h2
        rw [ih g ts ds (by omega) (by omega)]
      | .que :: _, [] => rfl
      | .que :: ts, _ :: ds =>
        show tokMatchF f ts ds = tokMatchF g ts ds
        simp only [List.length_cons] at h1 h2
        exact ih g ts ds (by omega) (by omega)
      | .star :: ts, [] =>
        show tokMatchF f ts [] = tokMatchF g ts []
        simp only [List.length_cons, List.length_nil] at h1 h2
        exact ih g ts [] (by simp only [List.length_nil]; omega)
          (by simp only [List.length_nil]; omega)
      | .star :: ts, d :: ds =>
        show (tokMatchF f ts (d :: ds) || tokMatchF f (.star :: ts) ds) =
          (tokMatchF g ts (d :: ds) || tokMatchF g (.star :: ts) ds)
        simp only [List.length_cons] at h1 h2
        rw [ih g ts (d :: ds) (by simp only [List.length_cons]; omega)
            (by simp only [List.length_cons]; omega),
          ih g (.star :: ts) ds (by simp only [List.length_cons]; omega)
            (by simp only [List.length_cons]; omega)]

theorem tokMatch_nil_nil : tokMatch [] [] = true := rfl

theorem tokMatch_nil_cons (d : Char) (ds : List Char) :
    tokMatch [] (d :: ds) = false := rfl

theorem tokMatch_lit_nil (c : Char) (ts : List Tok) :
    tokMatch (.lit c :: ts) [] = false := rfl

theorem tokMatch_que_nil (ts : List Tok) : tokMatch (.que :: ts) [] = false := rfl

theorem tokMatch_lit_cons (c : Char) (ts : List Tok) (d : Char) (ds : List Char) :
    tokMatch (.lit c :: ts) (d :: ds) = (c == d && tokMatch ts ds) := by
  show (c == d && tokMatchF ((Tok.lit c :: ts).length + (d :: ds).length) ts ds) = _
  rw [tokMatchF_irrel _ (ts.length + ds.length + 1) ts ds
    (by simp only [List.length_cons]; omega) (by omega)]
  rfl

theorem tokMatch_que_cons (ts : List Tok) (d : Char) (ds : List Char) :
    tokMatch (.que :: ts) (d :: ds) = tokMatch ts ds := by
  show tokMatchF ((Tok.que :: ts).length + (d :: ds).length) ts ds = _
  rw [tokMatchF_irrel _ (ts.length + ds.length + 1) ts ds
    (by simp only [List.length_cons]; omega) (by omega)]
  rfl

theorem tokMatch_star_nil (ts : List Tok) :
    tokMatch (.star :: ts) [] = tokMatch ts [] := by
  show tokMatchF ((Tok.star :: ts).length + ([] : List Char).length) ts [] = _
  rw [tokMatchF_irrel _ (ts.length + ([] : List Char).length + 1) ts []
    (by simp only [List.length_cons, List.length_nil]; omega)
    (by simp only [List.length_nil]; omega)]
  rfl

theorem tokMatch_star_cons (ts : List Tok) (d : Char) (ds : List Char) :
    tokMatch (.star :: ts) (d :: ds) =
      (tokMatch ts (d :: ds) || tokMatch (.star :: ts) ds) := by
  show (tokMatchF ((Tok.star :: ts).length + (d :: ds).length) ts (d :: ds) ||
      tokMatchF ((Tok.star :: ts).length + (d :: ds).length) (.star :: ts) ds) = _
  rw [tokMatchF_irrel _ (ts.length + (d :: ds).length + 1) ts (d :: ds)
      (by simp only [List.length_cons]; omega) (by simp only [List.length_cons]; omega),
    tokMatchF_irrel _ ((Tok.star :: ts).length + ds.length + 1) (.star :: ts) ds
      (by simp only [List.length_cons]; omega) (by simp only [List.length_cons]; omega)]
  rfl

theorem charTok_star : charTok '*' = .star := rfl

theorem charTok_que : charTok '?' = .que := rfl

theorem charTok_lit {c : Char} (h1 : c ≠ '*') (h2 : c ≠ '?') : charTok c = .lit c := by
  simp [charTok, h1, h2]

theorem GM_nil_iff (s : List Char) : GM [] s ↔ s = [] := by
  constructor
  · intro h
    cases h
    rfl
  · intro h; subst h; exact GM.nil

theorem GM_star_shift {p s : List Char} {d : Char} (h : GM ('*' :: p) s) :
    GM ('*' :: p) (d :: s) := by
  cases h with
  | lit hne _ _ => exact absurd rfl hne
  | star s₁ s₂ hgm => exact GM.star (d :: s₁) s₂ hgm

theorem tokMatch_of_GM : ∀ {p s : List Char}, GM p s →
    tokMatch (p.map charTok) s = true := by
  intro p s h
  induction h with
  | nil => exact tokMatch_nil_nil
  | lit hs hq hgm ih =>
    rename_i c p' s'
    rw [List.map_cons, charTok_lit hs hq, tokMatch_lit_cons]
    simp [ih]
  | que d hgm ih =>
    rw [List.map_cons, charTok_que, tokMatch_que_cons]
    exact ih
  | star s₁ s₂ hgm ih =>
    rename_i p'
    rw [List.map_cons, charTok_star]
    induction s₁ with
    | nil =>
      cases s₂ with
      | nil => rw [List.nil_append, tokMatch_star_nil]; exact ih
      | cons d ds =>
        rw [List.nil_append, tokMatch_star_cons]
        simp [ih]
    | cons a s₁' ihs =>
      rw [List.cons_append, tokMatch_star_cons]
      simp [ihs]

theorem GM_of_tokMatch : ∀ N p s, List.length p + List.length s ≤ N →
    tokMatch (p.map charTok) s = true → GM p s := by
  intro N
  induction N with
  | zero =>
    intro p s hN h
    have hp : p = [] := by cases p with
      | nil => rfl
      | cons a l => simp at hN
    have hs : s = [] := by cases s with
      | nil => rfl
      | cons a l => simp at hN
    subst hp; subst hs
    exact GM.nil
  | succ M ih =>
    intro p s hN h
    cases p with
    | nil =>
      cases s with
      | nil => exact GM.nil
      | cons d ds => rw [List.map_nil, tokMatch_nil_cons] at h; cases h
    | cons c p' =>
      by_cases hstar : c = '*'
      · subst hstar
        rw [List.map_cons, charTok_star] at h
        cases s with
        | nil =>
          rw [tokMatch_star_nil] at h
          have := ih p' [] (by simp at hN ⊢; omega) h
          exact (GM.star [] [] this : GM ('*' :: p') ([] ++ []))
        | cons d ds =>
          rw [tokMatch_star_cons] at h
          rcases Bool.or_eq_true_iff.mp h with h1 | h2
          · have := ih p' (d :: ds) (by simp at hN ⊢; omega) h1
            exact (GM.star [] (d :: ds) this : GM ('*' :: p') ([] ++ d :: ds))
          · have h2' : GM ('*' :: p') ds := by
              refine ih ('*' :: p') ds (by simp at hN ⊢; omega) ?_
              rw [List.map_cons, charTok_star]
              exact h2
            exact GM_star_shift h2'
      · by_cases hque : c = '?'
        · subst hque
          rw [List.map_cons, charTok_que] at h
          cases s with
          | nil => rw [tokMatch_que_nil] at h; cases h
          | cons d ds =>
            rw [tokMatch_que_cons] at h
            exact GM.que d (ih p' ds (by simp at hN ⊢; omega) h)
        · rw [List.map_cons, charTok_lit hstar hque] at h
          cases s with
          | nil => rw [tokMatch_lit_nil] at h; cases h
          | cons d ds =>
            rw [tokMatch_lit_cons] at h
            rcases Bool.and_eq_true_iff.mp h with ⟨hcd, hrest⟩
            have hcd' : c = d := by simpa using hcd
            subst hcd'
            exact GM.lit hstar hque (ih p' ds (by simp at hN ⊢; omega) hrest)

theorem tokMatch_iff_GM (p s : List Char) :
    tokMatch (p.map charTok) s = true ↔ GM p s :=
  ⟨GM_of_tokMatch (p.length + s.length) p s (le_refl _), tokMatch_of_GM⟩

/-- Correctness of the substring test: `infixB p s` holds exactly when
`p` occurs contiguously inside `s`. -/
theorem infixB_iff (p s : List Char) :
    infixB p s = true ↔ ∃ l r, s = l ++ p ++ r := by
  constructor
  · intro h
    simp only [infixB, List.any_eq_true, List.mem_range] at h
    obtain ⟨i, hi, heq⟩ := h
    have heq' : (s.drop i).take p.length = p := by simpa using heq
    have h2 : p ++ (s.drop i).drop p.length = s.drop i := by
      conv_rhs => rw [← List.take_append_drop p.length (s.drop i)]
      rw [heq']
    refine ⟨s.take i, (s.drop i).drop p.length, ?_⟩
    rw [List.append_assoc, h2, List.take_append_drop]
  · rintro ⟨l, r, rfl⟩
    simp only [infixB, List.any_eq_true, List.mem_range]
    refine ⟨l.length, by simp only [List.length_append]; omega, ?_⟩
    have h1 : (l ++ p ++ r).drop l.length = p ++ r := by
      rw [List.append_assoc, List.drop_left]
    rw [h1]
    simp [List.take_left]

/-! ## Claim theorems -/

/-- C1: evaluation at the failing input.  In `proj` containing directory
`a` (holding only `x`) and file `b`, the entry `x` is the last item
among its filtered siblings, yet — because its parent `a` was not last —
line 50 of the source renders it with `├── ` instead of `└── `. -/
theorem connector_bug_eval :
    (treeOut defaultConfig (.dir (some
      [("a", .dir (some [("x", .file 0)])), ("b", .file 0)]))).lines =
      ["├── a", "    ├── x", "└── b"] := by decide

/-- C2: evaluation at the failing input.  On the spec's example tree the
code produces `    ├── main.py` as the third line (four-space
continuation prefix and `├── ` connector), not `│   └── main.py`. -/
theorem example_scenario_eval :
    visualize defaultConfig "proj" (.dir (some
      [(".git", .dir (some [])),
       ("src", .dir (some [("main.py", .file 10)])),
       ("README.md", .file 100)])) =
      "proj/\n├── src\n    ├── main.py\n└── README.md" := by decide

/-- C3 counterexample: with `max_depth = 0` the root's children — at
depth 1 > 0 — still appear in both outputs: the tree renders `a.txt`
and the search returns a record for it. -/
theorem depth_bound_counterexample :
    (treeOut ⟨false, some 0, defaultExcludePatterns⟩
        (.dir (some [("a.txt", .file 0)]))).lines = ["└── a.txt"] ∧
    (treeOut ⟨false, some 0, defaultExcludePatterns⟩
        (.dir (some [("a.txt", .file 0)]))).visited = [([], "a.txt")] ∧
    search_files ⟨false, some 0, defaultExcludePatterns⟩ "a"
        (.dir (some [("a.txt", .file 0)])) =
      [⟨"a.txt", ["a.txt"], "file", some "0.0 B"⟩] := by decide

/-- C4 counterexample: the entry `weird` (neither directory nor file) is
encountered — the tree's progress message counts it — and is not
excluded, yet it appears in neither the tree lines nor the search
results for a pattern it does not match. -/
theorem exclusion_iff_counterexample :
    defaultConfig.should_exclude "weird" = false ∧
    (treeOut defaultConfig (.dir (some [("weird", .special)]))).lines = [] ∧
    (treeOut defaultConfig (.dir (some [("weird", .special)]))).progress = [1] ∧
    search_files defaultConfig "xyz" (.dir (some [("weird", .special)])) = [] := by
  decide

/-- C8 counterexample: an unreadable subdirectory produces two lines
(its own and the `[Permission Denied]` placeholder) for a single
reachable non-excluded entry. -/
theorem line_count_counterexample :
    (treeOut defaultConfig (.dir (some [("secret", .dir none)]))).lines.length = 2 ∧
    specReachableCount defaultConfig (.dir (some [("secret", .dir none)])) = 1 := by
  decide

/-- C8 (amended): when every reachable directory is readable and every
entry is a directory or regular file, the number of tree lines equals
the number of non-excluded entries the depth-bounded traversal
reaches. -/
theorem line_count_amended (cfg : ScanConfig) (fs : FS)
    (hok : fs.Ok) (hdir : fs.is_dir = true) :
    (treeOut cfg fs).lines.length = specReachableCount cfg fs :=
  tree_lines_count cfg (fs.sz + 1) fs "" true [] hok hdir

/-- C8 witness. -/
theorem line_count_amended_witness :
    (FS.Ok (.dir (some [("a", .file 1)]))) ∧
    (treeOut defaultConfig (.dir (some [("a", .file 1)]))).lines.length =
      specReachableCount defaultConfig (.dir (some [("a", .file 1)])) := by
  have hok : FS.Ok (.dir (some [("a", .file 1)])) := by
    refine FS.Ok.dir _ ?_
    intro it hit
    simp only [List.mem_singleton] at hit
    subst hit
    exact FS.Ok.file 1
  exact ⟨hok, line_count_amended defaultConfig _ hok rfl⟩

/-- C9: the search never returns a record for the scan root itself:
every result's relative path is non-empty and ends with the entry's own
name, so it denotes an entry strictly below the root. -/
theorem no_root_record (cfg : ScanConfig) (pat : String) (fs : FS) :
    ∀ r ∈ search_files cfg pat fs,
      r.relative_path ≠ [] ∧ ∃ pre, r.relative_path = pre ++ [r.name] := by
  intro r hr
  have h := search_results_sound cfg pat (fs.sz + 1) fs [] r hr
  obtain ⟨pre, hpre, _, _⟩ := h.2.2.1
  refine ⟨?_, pre, hpre⟩
  rw [hpre]
  simp

/-- C9 witness. -/
theorem no_root_record_witness :
    (⟨"a.txt", ["a.txt"], "file", some "0.0 B"⟩ : SearchResult) ∈
        search_files defaultConfig "a" (.dir (some [("a.txt", .file 0)])) ∧
    (["a.txt"] : List String) ≠ [] := by
  refine ⟨by decide, ?_⟩
  have h := no_root_record defaultConfig "a" (.dir (some [("a.txt", .file 0)]))
    ⟨"a.txt", ["a.txt"], "file", some "0.0 B"⟩ (by decide)
  exact h.1

/-- C10: a non-excluded entry that is neither a directory nor a regular
file leaves the rendered lines (and the visited entries) unchanged —
it is dropped when the children are partitioned — while the directory's
progress count still includes it. -/
theorem special_entry_invisible (cfg : ScanConfig)
    (pre post : List (String × FS)) (n : String)
    (hexcl : cfg.should_exclude n = false) :
    (treeOut cfg (.dir (some (pre ++ (n, FS.special) :: post)))).lines =
      (treeOut cfg (.dir (some (pre ++ post)))).lines ∧
    (treeOut cfg (.dir (some (pre ++ (n, FS.special) :: post)))).visited =
      (treeOut cfg (.dir (some (pre ++ post)))).visited ∧
    (treeOut cfg (.dir (some (pre ++ (n, FS.special) :: post)))).progress =
      ((filteredChildren cfg (pre ++ post)).length + 1) ::
        (treeOut cfg (.dir (some (pre ++ post)))).progress.tail := by
  unfold treeOut
  rw [sz_insert_special]
  exact special_entry_effect cfg _ "" true [] pre post n hexcl
    (depthExceeded_zero cfg) (by simp)

/-- C10 witness. -/
theorem special_entry_invisible_witness :
    defaultConfig.should_exclude "weird" = false ∧
    (treeOut defaultConfig (.dir (some [("weird", FS.special), ("b.txt", .file 1)]))).lines =
      (treeOut defaultConfig (.dir (some [("b.txt", .file 1)]))).lines := by
  refine ⟨by decide, ?_⟩
  exact (special_entry_invisible defaultConfig [] [("b.txt", .file 1)] "weird"
    (by decide)).1

/-- C3 (amended): when `max_depth = m`, every rendered tree entry and
every search record lies at depth at most `m + 1` (the traversal lists
one level past the bound: the guard admits calls at depth `m`, whose
entries are at depth `m + 1`); when `max_depth = None`, the depth guard
never fires, so traversal is bounded only by the tree itself. -/
theorem depth_bound_amended (cfg : ScanConfig) (pat : String) (fs : FS) :
    (∀ m, cfg.max_depth = some m →
      (∀ v ∈ (treeOut cfg fs).visited, v.1.length + 1 ≤ m + 1) ∧
      (∀ r ∈ search_files cfg pat fs, r.relative_path.length ≤ m + 1)) ∧
    (cfg.max_depth = none → ∀ d, cfg.depthExceeded d = false) := by
  refine ⟨?_, ?_⟩
  · intro m hm
    constructor
    · intro v hv
      have h := tree_visited_sound cfg (fs.sz + 1) fs "" true [] v hv
      have hg := h.2.1
      unfold ScanConfig.depthExceeded at hg
      rw [hm] at hg
      simp at hg
      omega
    · intro r hr
      have h := search_results_sound cfg pat (fs.sz + 1) fs [] r hr
      obtain ⟨pre, hpre, hg, _⟩ := h.2.2.1
      unfold ScanConfig.depthExceeded at hg
      rw [hm] at hg
      simp at hg
      rw [hpre]
      simp only [List.length_append, List.length_singleton]
      omega
  · intro hm d
    unfold ScanConfig.depthExceeded
    rw [hm]

/-- C3 witness. -/
theorem depth_bound_amended_witness :
    (([] : List String).length + 1 ≤ 0 + 1) ∧
    defaultConfig.depthExceeded 5 = false := by
  constructor
  · exact ((depth_bound_amended ⟨false, some 0, defaultExcludePatterns⟩ "a"
      (.dir (some [("a.txt", .file 0)]))).1 0 rfl).1 ([], "a.txt") (by decide)
  · exact (depth_bound_amended defaultConfig "x" (.file 0)).2 rfl 5

/-- C4 (amended): restricted to encountered entries that are
directories or regular files, exclusion exactly characterizes absence
from both outputs: an encountered directory-or-file entry appears
neither among the rendered tree entries nor (under its path) among the
search records iff `should_exclude` holds for its name. -/
theorem exclusion_iff_amended (cfg : ScanConfig) (pat : String) (fs : FS)
    {rel : List String} {name : String} {e : FS}
    (henc : EncFrom cfg fs [] rel (name, e))
    (hdf : e.is_dir = true ∨ e.is_file = true) :
    cfg.should_exclude name = true ↔
      ((rel, name) ∉ (treeOut cfg fs).visited ∧
        ∀ r ∈ search_files cfg pat fs, r.relative_path ≠ rel ++ [name]) := by
  constructor
  · intro hexcl
    constructor
    · intro hv
      have h := tree_visited_sound cfg (fs.sz + 1) fs "" true [] _ hv
      rw [h.1] at hexcl
      cases hexcl
    · intro r hr hrel
      have h := search_results_sound cfg pat (fs.sz + 1) fs [] r hr
      obtain ⟨pre, hpre, _, _⟩ := h.2.2.1
      rw [hpre] at hrel
      have hname : r.name = name := by
        have := (List.append_inj' hrel rfl).2
        simpa using this
      rw [hname] at h
      rw [h.1] at hexcl
      cases hexcl
  · intro ⟨hnv, _⟩
    by_contra hne
    simp only [Bool.not_eq_true] at hne
    exact hnv (tree_visited_complete cfg henc hne hdf (fs.sz + 1) "" true (by omega))

/-- C4 witness. -/
theorem exclusion_iff_amended_witness :
    ¬((([], "a.txt") ∉
        (treeOut defaultConfig (.dir (some [("a.txt", .file 0)]))).visited) ∧
      ∀ r ∈ search_files defaultConfig "zzz" (.dir (some [("a.txt", .file 0)])),
        r.relative_path ≠ [] ++ ["a.txt"]) := by
  intro h
  have henc : EncFrom defaultConfig (.dir (some [("a.txt", FS.file 0)])) [] []
      ("a.txt", FS.file 0) :=
    EncFrom.base (by decide) rfl (by simp)
  have := (exclusion_iff_amended defaultConfig "zzz" _ henc (Or.inr rfl)).mpr h
  exact absurd this (by decide)

/-- C5: for patterns inside the fragment the spec's wording determines
— characters are ordinary or the handled `.`, `*`, `?`, none a raw
regex metacharacter (`plainPattern`) — a wildcard pattern (containing
`*` or `?`) matches a newline-free name exactly when the anchored
case-insensitive glob accepts it: `*` any sequence, `?` exactly one
character, other characters literal.  A wildcard-free pattern matches
— with no restriction at all — by case-insensitive substring
containment.  In particular `*.txt` matches `notes.TXT`, `*.txt` does
not match `notes.txt.bak`, and `log` matches `access.log` and
`LOG.txt`.  (Patterns with further raw metacharacters are compiled by
Python's regex engine itself and are outside the embedding.) -/
theorem search_match_semantics :
    (∀ pat name, hasWildcard pat = true → plainPattern pat = true →
      List.all name.data (fun c => !(c == '\n')) = true →
      (searchMatchesName pat name = true ↔ GlobCI pat name)) ∧
    (∀ pat name, hasWildcard pat = false →
      (searchMatchesName pat name = true ↔ SubstrCI pat name)) ∧
    plainPattern "*.txt" = true ∧
    searchMatchesName "*.txt" "notes.TXT" = true ∧
    searchMatchesName "*.txt" "notes.txt.bak" = false ∧
    plainPattern "log" = true ∧
    searchMatchesName "log" "access.log" = true ∧
    searchMatchesName "log" "LOG.txt" = true := by
  refine ⟨?_, ?_, by decide, by decide, by decide, by decide, by decide, by decide⟩
  · intro pat name hw hplain hnl
    unfold searchMatchesName
    rw [hw]
    simp only [reduceIte]
    unfold compilePat GlobCI
    exact tokMatch_iff_GM _ _
  · intro pat name hw
    unfold searchMatchesName
    rw [hw]
    simp only [Bool.false_eq_true, reduceIte]
    unfold substrB SubstrCI
    exact infixB_iff _ _

/-- C5 witness. -/
theorem search_match_semantics_witness :
    GlobCI "*.txt" "notes.TXT" ∧ SubstrCI "log" "LOG.txt" :=
  ⟨(search_match_semantics.1 "*.txt" "notes.TXT" (by decide) (by decide)
      (by decide)).mp (by decide),
    (search_match_semantics.2.1 "log" "LOG.txt" (by decide)).mp (by decide)⟩

/-- C6: `_get_size` renders 2048 bytes as `"2.0 KB"`, 500 bytes as
`"500.0 B"`, 2560 bytes as `"2.5 KB"` and 3·1024⁴ bytes as `"3.0 TB"`
(binary units, one decimal place, escalating B→KB→MB→GB→TB); any size
below 1024 keeps the `B` unit; every search record's size is either
absent or a `_get_size` rendering, and directory records carry none. -/
theorem size_formatting :
    get_size 2048 = "2.0 KB" ∧
    get_size 500 = "500.0 B" ∧
    get_size 2560 = "2.5 KB" ∧
    get_size (3 * 1024 * 1024 * 1024 * 1024) = "3.0 TB" ∧
    (∀ n : Nat, n < 1024 → get_size n = format1 n 1 ++ " " ++ "B") ∧
    (∀ k, FS.sizeField (.file k) = some (get_size k)) ∧
    (∀ o, FS.sizeField (.dir o) = none) ∧
    (∀ cfg pat fs, ∀ r ∈ search_files cfg pat fs,
      (r.type = "directory" → r.size = none) ∧
      (r.size = none ∨ ∃ k, r.size = some (get_size k))) := by
  refine ⟨by decide, by decide, by decide, by decide, ?_, fun k => rfl, fun o => rfl, ?_⟩
  · intro n hn
    show (if (n : Nat) < 1024 * 1 then format1 n 1 ++ " " ++ "B"
      else getSizeGo n (1 * 1024) ["KB", "MB", "GB"]) = _
    rw [if_pos (by omega)]
  · intro cfg pat fs r hr
    have h := search_results_sound cfg pat (fs.sz + 1) fs [] r hr
    exact ⟨h.2.2.2.2, h.2.2.2.1⟩

/-- C6 witness. -/
theorem size_formatting_witness :
    get_size 500 = format1 500 1 ++ " " ++ "B" ∧
    ((some "2.0 KB" : Option String) = none ∨
      ∃ k, (some "2.0 KB" : Option String) = some (get_size k)) := by
  constructor
  · exact size_formatting.2.2.2.2.1 500 (by omega)
  · exact (size_formatting.2.2.2.2.2.2.2 defaultConfig "b"
      (.dir (some [("b.txt", .file 2048)]))
      ⟨"b.txt", ["b.txt"], "file", some "2.0 KB"⟩ (by decide)).2

/-- C7: an unreadable directory makes the Tree Builder return exactly
the single `[Permission Denied]` line (no recursion, no entries, no
progress message), while the Search Engine returns nothing at all for
it; siblings of the unreadable directory are still rendered and
searched, as the concrete tree shows. -/
theorem permission_denied_behavior :
    (∀ cfg : ScanConfig, ∀ fuel pfx isLast relAcc, 0 < fuel →
      cfg.depthExceeded relAcc.length = false →
      treeGo cfg fuel (.dir none) pfx isLast relAcc =
        ⟨[pfx ++ "└── [Permission Denied]"], [], []⟩) ∧
    (∀ cfg : ScanConfig, ∀ pat fuel relAcc,
      searchGo cfg pat fuel (.dir none) relAcc = ([], [])) ∧
    (treeOut defaultConfig
        (.dir (some [("locked", .dir none), ("a.txt", .file 5)]))).lines =
      ["├── locked", "    └── [Permission Denied]", "└── a.txt"] ∧
    search_files defaultConfig "a"
        (.dir (some [("locked", .dir none), ("a.txt", .file 5)])) =
      [⟨"a.txt", ["a.txt"], "file", some "5.0 B"⟩] := by
  refine ⟨?_, ?_, by decide, by decide⟩
  · intro cfg fuel pfx isLast relAcc hf hg
    match fuel, hf with
    | f + 1, _ =>
      simp [treeGo, hg, FS.listingOf]
  · intro cfg pat fuel relAcc
    cases fuel with
    | zero => rfl
    | succ f =>
      simp only [searchGo, FS.listingOf]
      split <;> rfl

/-- C7 witness. -/
theorem permission_denied_behavior_witness :
    treeGo defaultConfig 1 (.dir none) "" true [] =
      ⟨["" ++ "└── [Permission Denied]"], [], []⟩ ∧
    searchGo defaultConfig "a" 3 (.dir none) ["x"] = ([], []) :=
  ⟨permission_denied_behavior.1 defaultConfig 1 "" true [] (by omega) (by decide),
    permission_denied_behavior.2.1 defaultConfig "a" 3 ["x"]⟩
